import Mathlib

/-!
Verification of the time-series normalization and alignment pipeline of the
midterm-markets chart (source: `src/KalshiMarketPriceChart.tsx`).

Embedding conventions: JS numbers used as integer milliseconds are embedded as
`Int`; JS real values (prices, percentages) as `ℚ` with exact arithmetic;
absent/undefined fields as `Option`; a JS function returning `null` as
`Option`.  `Math.floor((lo + hi) / 2)` on non-negative operands coincides with
`Int` division (Euclidean division rounds down for the positive divisor 2).
-/

set_option maxHeartbeats 1000000

namespace MidtermMarkets

/-- Canonical chart point, `ProjectionPoint` from the source:
`{ timestamp: integer ms, value: real }`. -/
structure ProjectionPoint where
  timestamp : Int
  value : ℚ
deriving Repr, DecidableEq

instance : Inhabited ProjectionPoint := ⟨⟨0, 0⟩⟩

/-- One OHLC sample, `Candle` from the source.  The JS field `open` is a Lean
keyword and is embedded as `open_`. -/
structure Candle where
  timestamp : Int
  open_ : ℚ
  high : ℚ
  low : ℚ
  close : ℚ
  updates : ℚ
deriving Repr, DecidableEq

instance : Inhabited Candle := ⟨⟨0, 0, 0, 0, 0, 0⟩⟩

/-- Value of a digit list (most significant first); callers guarantee every
character is a decimal digit. -/
def digitsVal (cs : List Char) : ℕ :=
  cs.foldl (fun n c => 10 * n + (c.toNat - 48)) 0

/-- Parse an unsigned decimal literal `digits [. digits]` or `. digits`;
`none` when the character list is not of that shape. -/
def parseUnsignedDecimal (cs : List Char) : Option ℚ :=
  let intPart := cs.takeWhile Char.isDigit
  let rest := cs.dropWhile Char.isDigit
  match rest with
  | [] => if intPart.isEmpty then none else some (digitsVal intPart : ℚ)
  | '.' :: frac =>
    if frac.all Char.isDigit then
      if intPart.isEmpty && frac.isEmpty then none
      else some ((digitsVal intPart : ℚ) + (digitsVal frac : ℚ) / (10 : ℚ) ^ frac.length)
    else none
  | _ => none

/-- Strip leading and trailing whitespace. -/
def trimWs (cs : List Char) : List Char :=
  ((cs.dropWhile Char.isWhitespace).reverse.dropWhile Char.isWhitespace).reverse

/-- Modelled from the JS builtin `Number(string)` composed with the
`Number.isFinite` guard used by `parseDollar`, restricted to optionally signed
decimal literals: `none` models a NaN (malformed string) or non-finite result;
the empty or all-whitespace string converts to `0` as in JS. -/
def jsNumber (s : String) : Option ℚ :=
  match trimWs s.toList with
  | [] => some 0
  | '+' :: rest => parseUnsignedDecimal rest
  | '-' :: rest => (parseUnsignedDecimal rest).map (fun q => -q)
  | cs => parseUnsignedDecimal cs

/-- Embeds `parseDollar` (source lines 511-515): `Number(value)` kept only when
finite, so `none` for an absent field and for a malformed numeric string. -/
def parseDollar (value : Option String) : Option ℚ :=
  match value with
  | none => none
  | some s => jsNumber s

/-- Provider candlestick OHLC component group (`KalshiCandlestickField`):
integer-cents fields and decimal-string dollar fields, all optional. -/
structure KalshiCandlestickField where
  open_ : Option ℚ
  high : Option ℚ
  low : Option ℚ
  close : Option ℚ
  open_dollars : Option String
  high_dollars : Option String
  low_dollars : Option String
  close_dollars : Option String
deriving Repr, DecidableEq

/-- Provider candlestick (`KalshiCandlestick`): period-end timestamp in
seconds, `price` and `yes_bid` component groups, volume fields. -/
structure KalshiCandlestick where
  end_period_ts : Option Int
  price : Option KalshiCandlestickField
  yes_bid : Option KalshiCandlestickField
  volume : Option ℚ
  volume_fp : Option String
deriving Repr, DecidableEq

/-- Per-candlestick body of `normalizeCandles` (source lines 631-658):
`price ?? yes_bid`, per component the parsed dollar string with the
cents-over-100 fallback, and the all-four-OHLC-plus-timestamp presence check;
`none` means the candlestick is dropped.  A NaN `volume_fp` parse is embedded
as 0 (the `updates` field is irrelevant to every property below). -/
def normalizeCandlestick (c : KalshiCandlestick) : Option Candle :=
  match c.price.orElse (fun _ => c.yes_bid) with
  | none => none
  | some source =>
    let openv := (parseDollar source.open_dollars).orElse
      (fun _ => source.open_.map (fun n => n / 100))
    let highv := (parseDollar source.high_dollars).orElse
      (fun _ => source.high.map (fun n => n / 100))
    let lowv := (parseDollar source.low_dollars).orElse
      (fun _ => source.low.map (fun n => n / 100))
    let closev := (parseDollar source.close_dollars).orElse
      (fun _ => source.close.map (fun n => n / 100))
    match openv, highv, lowv, closev, c.end_period_ts with
    | some o, some h, some l, some cl, some ts =>
      some { timestamp := ts * 1000, open_ := o, high := h, low := l, close := cl,
             updates := c.volume.getD ((c.volume_fp.map (fun s => (jsNumber s).getD 0)).getD 0) }
    | _, _, _, _, _ => none

/-- Embeds the provider-candlestick branch of `normalizeCandles` (source lines
625-665): map each candlestick and drop the nulls.  The already-canonical
branch returns its input unchanged and carries no logic. -/
def normalizeCandles (candlesticks : List KalshiCandlestick) : List Candle :=
  candlesticks.filterMap normalizeCandlestick

/-- Time window `{ startMs, endMs }`. -/
structure TimeRange where
  startMs : Int
  endMs : Int
deriving Repr, DecidableEq

/-- Embeds `clipPointsToRange` (source lines 416-422), specialised to
`ProjectionPoint` sequences. -/
def clipPointsToRange (points : List ProjectionPoint) (range : Option TimeRange) :
    List ProjectionPoint :=
  match range with
  | none => points
  | some r => points.filter (fun p => decide (r.startMs ≤ p.timestamp) && decide (p.timestamp ≤ r.endMs))

/-- Binary-search loop of `nearestIndexByTimestamp` (source lines 459-469),
with the post-loop index selection in the exit branch.  `lo`, `hi` and the
result are `Int` because `hi` reaches `-1` in JS. -/
def nearestIndexLoop (timestamps : List Int) (target : Int) (lo hi : Int) : Int :=
  if h : lo ≤ hi then
    let mid := (lo + hi) / 2
    let value := timestamps.getD mid.toNat 0
    if value = target then mid
    else if value < target then nearestIndexLoop timestamps target (mid + 1) hi
    else nearestIndexLoop timestamps target lo (mid - 1)
  else if lo ≤ 0 then 0
  else if (timestamps.length : Int) ≤ lo then (timestamps.length : Int) - 1
  else if (timestamps.getD lo.toNat 0 - target).natAbs <
      (timestamps.getD (lo - 1).toNat 0 - target).natAbs then lo
  else lo - 1
termination_by (hi + 1 - lo).toNat
decreasing_by
  · omega
  · omega

/-- Embeds `nearestIndexByTimestamp` (source lines 454-470). -/
def nearestIndexByTimestamp (timestamps : List Int) (target : Int) : Int :=
  if timestamps.length = 0 then 0
  else nearestIndexLoop timestamps target 0 ((timestamps.length : Int) - 1)

/-- Binary-search loop of `findCloseAtOrBefore` (source lines 477-485):
`best` records the last index whose timestamp was at or before the target. -/
def findCloseLoop (candles : List Candle) (targetTs : Int) (lo hi best : Int) : Int :=
  if h : lo ≤ hi then
    let mid := (lo + hi) / 2
    if (candles.getD mid.toNat default).timestamp ≤ targetTs then
      findCloseLoop candles targetTs (mid + 1) hi mid
    else
      findCloseLoop candles targetTs lo (mid - 1) best
  else best
termination_by (hi + 1 - lo).toNat
decreasing_by
  · omega
  · omega

/-- Embeds `findCloseAtOrBefore` (source lines 472-488). -/
def findCloseAtOrBefore (candles : List Candle) (targetTs : Int) : Option ℚ :=
  if candles.length = 0 then none
  else
    let best := findCloseLoop candles targetTs 0 ((candles.length : Int) - 1) (-1)
    if best < 0 then none else some (candles.getD best.toNat default).close

/-- One constituent strike market of the seat-projection basket together with
its fetched candle history (`seatMarkets` joined with `candleResults` in
`fetchExpectedSeatsProjection`). -/
structure SeatMarket where
  seats : ℚ
  candles : List Candle

/-- Inner accumulation over the basket at one timestamp (source lines
787-794): running `(weighted, totalProb)` pair; a market with no candle at or
before the timestamp is skipped. -/
def seatSums (markets : List SeatMarket) (ts : Int) : ℚ × ℚ :=
  markets.foldl
    (fun acc m =>
      match findCloseAtOrBefore m.candles ts with
      | none => acc
      | some p => (acc.1 + m.seats * p, acc.2 + p))
    (0, 0)

/-- Embeds the weighted-average core of `fetchExpectedSeatsProjection`
(source lines 785-800): one candidate point per reference timestamp, emitted
only when the accumulated probability mass is strictly positive. -/
def seatProjectionPoints (markets : List SeatMarket) (baseTimestamps : List Int) :
    List ProjectionPoint :=
  baseTimestamps.filterMap (fun ts =>
    let s := seatSums markets ts
    if 0 < s.2 then some ⟨ts, s.1 / s.2⟩ else none)

/-- Modelled from the JS expression
`Date.UTC(d.getUTCFullYear(), d.getUTCMonth(), d.getUTCDate())` applied to
`d = new Date(ts)` (source lines 828-829): the UTC midnight of the UTC
calendar day containing `ts`, i.e. `86400000 * ⌊ts / 86400000⌋` (JS time has
no leap seconds; every day is exactly 86400000 ms). -/
def dayBucketTs (ts : Int) : Int := 86400000 * (ts / 86400000)

/-- Insertion-ordered day-bucket update, modelling the JS `Map` get/set in
source lines 826-834: each entry is `(day key, running sum, running count)`. -/
def upsertBucket (buckets : List (Int × ℚ × ℕ)) (day : Int) (v : ℚ) :
    List (Int × ℚ × ℕ) :=
  match buckets with
  | [] => [(day, v, 1)]
  | (d, s, c) :: rest =>
    if d = day then (d, s + v, c + 1) :: rest
    else (d, s, c) :: upsertBucket rest day v

/-- Day buckets of the raw approval points (source lines 826-834). -/
def dayBuckets (raw : List ProjectionPoint) : List (Int × ℚ × ℕ) :=
  raw.foldl (fun b p => upsertBucket b (dayBucketTs p.timestamp) p.value) []

/-- Stable sort of a point list by timestamp, modelling the JS
`.sort((a, b) => a.timestamp - b.timestamp)` calls. -/
def sortPointsByTimestamp (points : List ProjectionPoint) : List ProjectionPoint :=
  points.insertionSort (fun a b => a.timestamp ≤ b.timestamp)

/-- Daily same-day averaging stage (source lines 836-841): one point per day
bucket valued `sum / count`, sorted by timestamp. -/
def dailyAverages (raw : List ProjectionPoint) : List ProjectionPoint :=
  sortPointsByTimestamp
    ((dayBuckets raw).map (fun e => (⟨e.1, e.2.1 / (e.2.2 : ℚ)⟩ : ProjectionPoint)))

/-- EMA loop of `fetchTrumpApprovalProjection` (source lines 846-852): every
iteration (the first included) updates the accumulator and pushes it clamped
to `[0, 100]`. -/
def emaLoop (alpha : ℚ) : ℚ → List ProjectionPoint → List ProjectionPoint
  | _, [] => []
  | ema, p :: rest =>
    let e := alpha * p.value + (1 - alpha) * ema
    ⟨p.timestamp, max 0 (min 100 e)⟩ :: emaLoop alpha e rest

/-- Smoothing stage of `fetchTrumpApprovalProjection` (source lines 843-854):
the daily sequence unchanged when it has at most 2 points, else the α = 0.35
EMA seeded by the first daily value. -/
def smoothDaily (daily : List ProjectionPoint) : List ProjectionPoint :=
  if daily.length ≤ 2 then daily
  else emaLoop (35 / 100) ((daily.headD default).value) daily

/-- Pure aggregation pipeline of `fetchTrumpApprovalProjection` (source lines
823-854) starting from the extracted raw `{timestamp, value}` points: sort by
timestamp, bucket by UTC day and average, then smooth. -/
def approvalAggregate (raw : List ProjectionPoint) : List ProjectionPoint :=
  smoothDaily (dailyAverages (sortPointsByTimestamp raw))

/-- Specification-side EMA accumulator used to state C4: fold of one smoothing
step over a list of daily values, from a seed. -/
def emaAccum (alpha seed : ℚ) (vals : List ℚ) : ℚ :=
  vals.foldl (fun e v => alpha * v + (1 - alpha) * e) seed

/-- Elements of a pairwise-related list are related at any two strictly
ordered in-bounds indices, `getD` version. -/
theorem getD_rel_of_pairwise_lt {α : Type} {r : α → α → Prop}
    {l : List α} (h : l.Pairwise r) (d : α) {i j : ℕ} (hij : i < j)
    (hj : j < l.length) : r (l.getD i d) (l.getD j d) := by
  have hi : i < l.length := lt_trans hij hj
  rw [List.getD_eq_getElem l d hi, List.getD_eq_getElem l d hj]
  exact List.pairwise_iff_getElem.mp h i j hi hj hij

/-- Reflexive-relation variant of `getD_rel_of_pairwise_lt` for `i ≤ j`. -/
theorem getD_rel_of_pairwise_le {α : Type} {r : α → α → Prop} (hrefl : ∀ a, r a a)
    {l : List α} (h : l.Pairwise r) (d : α) {i j : ℕ} (hij : i ≤ j)
    (hj : j < l.length) : r (l.getD i d) (l.getD j d) := by
  rcases Nat.lt_or_ge i j with hlt | hge
  · exact getD_rel_of_pairwise_lt h d hlt hj
  · have : i = j := le_antisymm hij hge
    subst this
    exact hrefl _

/-- In-bounds `getD` yields a member of the list. -/
theorem getD_mem_of_lt {α : Type} (l : List α) (d : α) {i : ℕ}
    (hi : i < l.length) : l.getD i d ∈ l := by
  rw [List.getD_eq_getElem l d hi]
  exact List.getElem_mem hi

/-- Bounds invariant of the `nearestIndexByTimestamp` binary-search loop: from
any state with `0 ≤ lo` and `hi ≤ length - 1` over a non-empty list, the
result is a valid index.  No sortedness is assumed. -/
theorem nearestIndexLoop_bounds (ts : List Int) (target : Int) :
    ∀ (fuel : ℕ) (lo hi : Int), (hi + 1 - lo).toNat ≤ fuel →
      0 ≤ lo → hi ≤ (ts.length : Int) - 1 → 0 < ts.length →
      0 ≤ nearestIndexLoop ts target lo hi ∧
        nearestIndexLoop ts target lo hi ≤ (ts.length : Int) - 1 := by
  intro fuel
  induction fuel with
  | zero =>
    intro lo hi hf h0 hn hlen
    rw [nearestIndexLoop, dif_neg (by omega)]
    split_ifs <;> omega
  | succ f ih =>
    intro lo hi hf h0 hn hlen
    rw [nearestIndexLoop]
    by_cases hcmp : lo ≤ hi
    · rw [dif_pos hcmp]
      dsimp only
      split_ifs with h1 h2
      · omega
      · exact ih ((lo + hi) / 2 + 1) hi (by omega) (by omega) hn hlen
      · exact ih lo ((lo + hi) / 2 - 1) (by omega) h0 (by omega) hlen
    · rw [dif_neg hcmp]
      split_ifs <;> omega

/-- C9: for every non-empty timestamp list (sorted or not) and every target,
`nearestIndexByTimestamp` returns an index in `[0, length - 1]`, so indexing
at the result is always in bounds; the loop terminates on every input (it is
a total function, defined by well-founded recursion on `hi + 1 - lo`). -/
theorem nearestIndex_in_bounds (timestamps : List Int) (target : Int)
    (h : timestamps ≠ []) :
    0 ≤ nearestIndexByTimestamp timestamps target ∧
      nearestIndexByTimestamp timestamps target ≤ (timestamps.length : Int) - 1 := by
  have hlen : 0 < timestamps.length := List.length_pos.mpr h
  rw [nearestIndexByTimestamp, if_neg (by omega)]
  exact nearestIndexLoop_bounds timestamps target (timestamps.length + 1) 0
    ((timestamps.length : Int) - 1) (by omega) (by omega) (by omega) hlen

/-- Witness for C9 on the concrete unsorted list `[5, 1]` with target `3`. -/
theorem nearestIndex_in_bounds_witness :
    ([5, 1] : List Int) ≠ [] ∧
      0 ≤ nearestIndexByTimestamp [5, 1] 3 ∧
      nearestIndexByTimestamp [5, 1] 3 ≤ 1 := by
  refine ⟨by simp, ?_⟩
  have h := nearestIndex_in_bounds [5, 1] 3 (by simp)
  simpa using h

/-- Exit branch of the nearest-index loop: when the window is exhausted and
every element left of `lo` is below the target while every element from `lo`
on is above it, the index chosen by the exit branch minimises the absolute
distance to the target over the whole (sorted) list. -/
theorem nearestIndexLoop_exit_min (ts : List Int) (target : Int)
    (hs : ts.Pairwise (· ≤ ·)) (lo hi : Int) (hgt : ¬(lo ≤ hi))
    (h0 : 0 ≤ lo) (_hn : hi ≤ (ts.length : Int) - 1) (hlen : 0 < ts.length)
    (hlow : ∀ j : ℕ, j < ts.length → (j : Int) < lo → ts.getD j 0 < target)
    (hhigh : ∀ j : ℕ, j < ts.length → hi < (j : Int) → target < ts.getD j 0) :
    ∀ j : ℕ, j < ts.length →
      (ts.getD (nearestIndexLoop ts target lo hi).toNat 0 - target).natAbs ≤
        (ts.getD j 0 - target).natAbs := by
  intro j hj
  rw [nearestIndexLoop, dif_neg hgt]
  split_ifs with e1 e2 e3
  · have ha := hhigh 0 (by omega) (by omega)
    have hb := hhigh j hj (by omega)
    have hc : ts.getD 0 0 ≤ ts.getD j 0 :=
      getD_rel_of_pairwise_le (fun a => le_refl a) hs 0 (Nat.zero_le j) hj
    rw [show ((0 : Int)).toNat = 0 from rfl]
    omega
  · rw [show ((ts.length : Int) - 1).toNat = ts.length - 1 from by omega]
    have ha := hlow (ts.length - 1) (by omega) (by omega)
    have hb := hlow j hj (by omega)
    have hc : ts.getD j 0 ≤ ts.getD (ts.length - 1) 0 :=
      getD_rel_of_pairwise_le (fun a => le_refl a) hs 0 (by omega) (by omega)
    omega
  · rw [show (lo - 1).toNat = lo.toNat - 1 from by omega] at e3
    have ha := hlow (lo.toNat - 1) (by omega) (by omega)
    have hb := hhigh lo.toNat (by omega) (by omega)
    rcases Nat.lt_or_ge j lo.toNat with hc | hc
    · have hm : ts.getD j 0 ≤ ts.getD (lo.toNat - 1) 0 :=
        getD_rel_of_pairwise_le (fun a => le_refl a) hs 0 (by omega) (by omega)
      omega
    · have hm : ts.getD lo.toNat 0 ≤ ts.getD j 0 :=
        getD_rel_of_pairwise_le (fun a => le_refl a) hs 0 hc hj
      omega
  · rw [show (lo - 1).toNat = lo.toNat - 1 from by omega] at e3 ⊢
    have ha := hlow (lo.toNat - 1) (by omega) (by omega)
    have hb := hhigh lo.toNat (by omega) (by omega)
    rcases Nat.lt_or_ge j lo.toNat with hc | hc
    · have hm : ts.getD j 0 ≤ ts.getD (lo.toNat - 1) 0 :=
        getD_rel_of_pairwise_le (fun a => le_refl a) hs 0 (by omega) (by omega)
      omega
    · have hm : ts.getD lo.toNat 0 ≤ ts.getD j 0 :=
        getD_rel_of_pairwise_le (fun a => le_refl a) hs 0 hc hj
      omega

/-- Minimality invariant of the nearest-index loop over a sorted list: from
any state whose outside regions are strictly below (left) and strictly above
(right) the target, the returned index minimises the absolute distance. -/
theorem nearestIndexLoop_min (ts : List Int) (target : Int)
    (hs : ts.Pairwise (· ≤ ·)) :
    ∀ (fuel : ℕ) (lo hi : Int), (hi + 1 - lo).toNat ≤ fuel →
      0 ≤ lo → hi ≤ (ts.length : Int) - 1 → 0 < ts.length →
      (∀ j : ℕ, j < ts.length → (j : Int) < lo → ts.getD j 0 < target) →
      (∀ j : ℕ, j < ts.length → hi < (j : Int) → target < ts.getD j 0) →
      ∀ j : ℕ, j < ts.length →
        (ts.getD (nearestIndexLoop ts target lo hi).toNat 0 - target).natAbs ≤
          (ts.getD j 0 - target).natAbs := by
  intro fuel
  induction fuel with
  | zero =>
    intro lo hi hf h0 hn hlen hlow hhigh
    exact nearestIndexLoop_exit_min ts target hs lo hi (by omega) h0 hn hlen hlow hhigh
  | succ f ih =>
    intro lo hi hf h0 hn hlen hlow hhigh
    by_cases hcmp : lo ≤ hi
    · intro j hj
      rw [nearestIndexLoop, dif_pos hcmp]
      dsimp only
      split_ifs with h1 h2
      · omega
      · refine ih ((lo + hi) / 2 + 1) hi (by omega) (by omega) hn hlen ?_ hhigh j hj
        intro j2 hj2 hj2lt
        have hmono : ts.getD j2 0 ≤ ts.getD ((lo + hi) / 2).toNat 0 :=
          getD_rel_of_pairwise_le (fun a => le_refl a) hs 0 (by omega) (by omega)
        omega
      · refine ih lo ((lo + hi) / 2 - 1) (by omega) h0 (by omega) hlen hlow ?_ j hj
        intro j2 hj2 hj2gt
        have hmono : ts.getD ((lo + hi) / 2).toNat 0 ≤ ts.getD j2 0 :=
          getD_rel_of_pairwise_le (fun a => le_refl a) hs 0 (by omega) hj2
        omega
    · exact nearestIndexLoop_exit_min ts target hs lo hi hcmp h0 hn hlen hlow hhigh

/-- C6: on a non-empty ascending-sorted timestamp list the index returned by
`nearestIndexByTimestamp` has minimal absolute distance to the target: no
other index is strictly closer. -/
theorem nearestIndex_minimizes_distance (timestamps : List Int) (target : Int)
    (hne : timestamps ≠ []) (hs : timestamps.Sorted (· ≤ ·)) :
    ∀ j : ℕ, j < timestamps.length →
      (timestamps.getD (nearestIndexByTimestamp timestamps target).toNat 0 - target).natAbs ≤
        (timestamps.getD j 0 - target).natAbs := by
  have hlen : 0 < timestamps.length := List.length_pos.mpr hne
  have hp : timestamps.Pairwise (· ≤ ·) := hs
  rw [nearestIndexByTimestamp, if_neg (by omega)]
  refine nearestIndexLoop_min timestamps target hp (timestamps.length + 1) 0
    ((timestamps.length : Int) - 1) (by omega) (by omega) (by omega) hlen ?_ ?_
  · intro j hj hcon
    omega
  · intro j hj hcon
    omega

/-- Witness for C6 on the sorted list `[0, 10]` with target `6` (nearest is
index 1). -/
theorem nearestIndex_minimizes_distance_witness :
    ([0, 10] : List Int) ≠ [] ∧ ([0, 10] : List Int).Sorted (· ≤ ·) ∧
      ∀ j : ℕ, j < 2 →
        (([0, 10] : List Int).getD (nearestIndexByTimestamp [0, 10] 6).toNat 0 - 6).natAbs ≤
          (([0, 10] : List Int).getD j 0 - 6).natAbs := by
  refine ⟨by simp, by simp, ?_⟩
  have h := nearestIndex_minimizes_distance [0, 10] 6 (by simp) (by simp)
  simpa using h

/-- Exit-point characterisation of the nearest-index loop: when `k` splits
the list into elements strictly below the target (indices `< k`) and strictly
above it (indices `≥ k`), the loop run on any window bracketing `k` exits at
`lo = k` and returns the post-loop selection at `k`. -/
theorem nearestIndexLoop_exact (ts : List Int) (target : Int) (k : ℕ)
    (hlow : ∀ j : ℕ, j < ts.length → j < k → ts.getD j 0 < target)
    (hhigh : ∀ j : ℕ, j < ts.length → k ≤ j → target < ts.getD j 0) :
    ∀ (fuel : ℕ) (lo hi : Int), (hi + 1 - lo).toNat ≤ fuel →
      0 ≤ lo → lo ≤ (k : Int) → (k : Int) ≤ hi + 1 → hi ≤ (ts.length : Int) - 1 →
      nearestIndexLoop ts target lo hi =
        if (k : Int) ≤ 0 then 0
        else if (ts.length : Int) ≤ (k : Int) then (ts.length : Int) - 1
        else if (ts.getD k 0 - target).natAbs < (ts.getD (k - 1) 0 - target).natAbs
          then (k : Int)
        else (k : Int) - 1 := by
  intro fuel
  induction fuel with
  | zero =>
    intro lo hi hf h0 hlk hkh hn
    have hlo : lo = (k : Int) := by omega
    rw [nearestIndexLoop, dif_neg (by omega)]
    subst hlo
    rw [show ((k : Int)).toNat = k from by omega,
      show ((k : Int) - 1).toNat = k - 1 from by omega]
  | succ f ih =>
    intro lo hi hf h0 hlk hkh hn
    by_cases hcmp : lo ≤ hi
    · rw [nearestIndexLoop, dif_pos hcmp]
      dsimp only
      have h1 : ¬(ts.getD ((lo + hi) / 2).toNat 0 = target) := by
        intro h1
        rcases Nat.lt_or_ge ((lo + hi) / 2).toNat k with hc | hc
        · have := hlow ((lo + hi) / 2).toNat (by omega) hc
          omega
        · have := hhigh ((lo + hi) / 2).toNat (by omega) hc
          omega
      rw [if_neg h1]
      by_cases h2 : ts.getD ((lo + hi) / 2).toNat 0 < target
      · rw [if_pos h2]
        have hmidk : ((lo + hi) / 2).toNat < k := by
          by_contra hcon
          have := hhigh ((lo + hi) / 2).toNat (by omega) (by omega)
          omega
        exact ih ((lo + hi) / 2 + 1) hi (by omega) (by omega) (by omega) hkh hn
      · rw [if_neg h2]
        have hmidk : k ≤ ((lo + hi) / 2).toNat := by
          by_contra hcon
          have := hlow ((lo + hi) / 2).toNat (by omega) (by omega)
          omega
        exact ih lo ((lo + hi) / 2 - 1) (by omega) h0 hlk (by omega) (by omega)
    · have hlo : lo = (k : Int) := by omega
      rw [nearestIndexLoop, dif_neg hcmp]
      subst hlo
      rw [show ((k : Int)).toNat = k from by omega,
        show ((k : Int) - 1).toNat = k - 1 from by omega]

/-- C1 counterexample: on the strictly ascending list `[0, 10]` with target
`5` the adjacent elements 0 and 10 are exactly equidistant from the target
(distance 5), and `nearestIndexByTimestamp` returns the EARLIER index 0, not
the later index 1 the claim requires. -/
theorem nearestIndex_tie_counterexample :
    nearestIndexByTimestamp [0, 10] 5 = 0 ∧ nearestIndexByTimestamp [0, 10] 5 ≠ 1 := by
  have h : nearestIndexByTimestamp [0, 10] 5 = 0 := by
    rw [nearestIndexByTimestamp]
    norm_num
    rw [nearestIndexLoop]
    norm_num
    rw [nearestIndexLoop]
    norm_num
    rw [nearestIndexLoop]
    norm_num
  exact ⟨h, by rw [h]; decide⟩

/-- C1 (amended): for every strictly ascending timestamp list and every
target such that two adjacent elements are exactly equidistant from the
target, the strict `<` distance comparison makes `nearestIndexByTimestamp`
return the EARLIER (lower) index of the tied pair. -/
theorem nearestIndex_tie_earlier_wins (timestamps : List Int) (target : Int)
    (hs : timestamps.Sorted (· < ·)) (i : ℕ) (hi1 : i + 1 < timestamps.length)
    (htie : target - timestamps.getD i 0 = timestamps.getD (i + 1) 0 - target) :
    nearestIndexByTimestamp timestamps target = (i : Int) := by
  have hp : timestamps.Pairwise (· < ·) := hs
  have hlen : 0 < timestamps.length := by omega
  have hii : timestamps.getD i 0 < timestamps.getD (i + 1) 0 :=
    getD_rel_of_pairwise_lt hp 0 (Nat.lt_succ_self i) hi1
  have hlow : ∀ j : ℕ, j < timestamps.length → j < i + 1 →
      timestamps.getD j 0 < target := by
    intro j hj hji
    have hmono : timestamps.getD j 0 ≤ timestamps.getD i 0 :=
      getD_rel_of_pairwise_le (fun a => le_refl a) (hp.imp (fun h => le_of_lt h)) 0
        (by omega) (by omega)
    omega
  have hhigh : ∀ j : ℕ, j < timestamps.length → i + 1 ≤ j →
      target < timestamps.getD j 0 := by
    intro j hj hji
    have hmono : timestamps.getD (i + 1) 0 ≤ timestamps.getD j 0 :=
      getD_rel_of_pairwise_le (fun a => le_refl a) (hp.imp (fun h => le_of_lt h)) 0
        hji hj
    omega
  rw [nearestIndexByTimestamp, if_neg (by omega)]
  rw [nearestIndexLoop_exact timestamps target (i + 1) hlow hhigh
    (timestamps.length + 1) 0 ((timestamps.length : Int) - 1)
    (by omega) (by omega) (by omega) (by omega) (by omega)]
  rw [Nat.add_sub_cancel]
  rw [if_neg (by omega), if_neg (by omega), if_neg (by omega)]
  omega

/-- Witness for the amended C1 at `[0, 10]` with target `5`: the earlier
index of the tied pair is returned. -/
theorem nearestIndex_tie_earlier_wins_witness :
    nearestIndexByTimestamp [0, 10] 5 = 0 := by
  have h := nearestIndex_tie_earlier_wins [0, 10] 5 (by decide) 0 (by norm_num) (by decide)
  simpa using h

/-- Threshold invariant of the `findCloseAtOrBefore` loop: started with
`best = lo - 1` on a window whose left outside region is at-or-before the
target and whose right outside region is strictly after it, the loop returns
an index r with every index `≤ r` at-or-before the target and every index
`> r` strictly after it. -/
theorem findCloseLoop_spec (candles : List Candle) (target : Int)
    (hs : candles.Pairwise (fun a b => a.timestamp ≤ b.timestamp)) :
    ∀ (fuel : ℕ) (lo hi best : Int), (hi + 1 - lo).toNat ≤ fuel →
      best = lo - 1 → 0 ≤ lo → lo ≤ hi + 1 → hi ≤ (candles.length : Int) - 1 →
      (∀ j : ℕ, j < candles.length → (j : Int) < lo →
        (candles.getD j default).timestamp ≤ target) →
      (∀ j : ℕ, j < candles.length → hi < (j : Int) →
        target < (candles.getD j default).timestamp) →
      -1 ≤ findCloseLoop candles target lo hi best ∧
      findCloseLoop candles target lo hi best ≤ (candles.length : Int) - 1 ∧
      (∀ j : ℕ, j < candles.length →
        (j : Int) ≤ findCloseLoop candles target lo hi best →
        (candles.getD j default).timestamp ≤ target) ∧
      (∀ j : ℕ, j < candles.length →
        findCloseLoop candles target lo hi best < (j : Int) →
        target < (candles.getD j default).timestamp) := by
  intro fuel
  induction fuel with
  | zero =>
    intro lo hi best hf hbest h0 hwin hn hlow hhigh
    rw [findCloseLoop, dif_neg (by omega)]
    subst hbest
    refine ⟨by omega, by omega, ?_, ?_⟩
    · intro j hj hjr
      exact hlow j hj (by omega)
    · intro j hj hjr
      exact hhigh j hj (by omega)
  | succ f ih =>
    intro lo hi best hf hbest h0 hwin hn hlow hhigh
    by_cases hcmp : lo ≤ hi
    · rw [findCloseLoop, dif_pos hcmp]
      dsimp only
      split_ifs with h1
      · refine ih ((lo + hi) / 2 + 1) hi ((lo + hi) / 2) (by omega) (by omega)
          (by omega) (by omega) hn ?_ hhigh
        intro j2 hj2 hj2lt
        have hmono : (candles.getD j2 default).timestamp ≤
            (candles.getD ((lo + hi) / 2).toNat default).timestamp :=
          @getD_rel_of_pairwise_le Candle (fun a b => a.timestamp ≤ b.timestamp)
            (fun a => le_refl _) candles hs default j2 ((lo + hi) / 2).toNat
            (by omega) (by omega)
        omega
      · refine ih lo ((lo + hi) / 2 - 1) best (by omega) hbest h0 (by omega)
          (by omega) hlow ?_
        intro j2 hj2 hj2gt
        have hmono : (candles.getD ((lo + hi) / 2).toNat default).timestamp ≤
            (candles.getD j2 default).timestamp :=
          @getD_rel_of_pairwise_le Candle (fun a b => a.timestamp ≤ b.timestamp)
            (fun a => le_refl _) candles hs default ((lo + hi) / 2).toNat j2
            (by omega) hj2
        omega
    · rw [findCloseLoop, dif_neg hcmp]
      subst hbest
      refine ⟨by omega, by omega, ?_, ?_⟩
      · intro j hj hjr
        exact hlow j hj (by omega)
      · intro j hj hjr
        exact hhigh j hj (by omega)

/-- C5: over an ascending candle list, `findCloseAtOrBefore` returns `none`
iff no candle timestamp is at or before the target; otherwise it returns the
close of the candle whose timestamp is maximal among those at or before the
target. -/
theorem findCloseAtOrBefore_spec (candles : List Candle) (T : Int)
    (hs : candles.Pairwise (fun a b => a.timestamp < b.timestamp)) :
    (findCloseAtOrBefore candles T = none ↔ ∀ c ∈ candles, ¬(c.timestamp ≤ T)) ∧
    ∀ v : ℚ, findCloseAtOrBefore candles T = some v →
      ∃ c ∈ candles, c.timestamp ≤ T ∧ v = c.close ∧
        ∀ c' ∈ candles, c'.timestamp ≤ T → c'.timestamp ≤ c.timestamp := by
  have hp : candles.Pairwise (fun a b => a.timestamp ≤ b.timestamp) :=
    hs.imp (fun h => le_of_lt h)
  by_cases hemp : candles.length = 0
  · have heq : candles = [] := List.length_eq_zero.mp hemp
    subst heq
    refine ⟨by simp [findCloseAtOrBefore], ?_⟩
    intro v hv
    simp [findCloseAtOrBefore] at hv
  · obtain ⟨hb1, hb2, hle, hgt⟩ := findCloseLoop_spec candles T hp
      (candles.length + 1) 0 ((candles.length : Int) - 1) (-1) (by omega) (by omega)
      (by omega) (by omega) (by omega)
      (by intro j hj hcon; omega) (by intro j hj hcon; omega)
    rw [findCloseAtOrBefore, if_neg hemp]
    set r := findCloseLoop candles T 0 ((candles.length : Int) - 1) (-1) with hr
    constructor
    · constructor
      · intro hnone c hc hct
        by_cases hrneg : r < 0
        · obtain ⟨j, hj, rfl⟩ := List.mem_iff_getElem.mp hc
          have h2 := hgt j hj (by omega)
          rw [List.getD_eq_getElem candles default hj] at h2
          omega
        · rw [if_neg hrneg] at hnone
          exact Option.some_ne_none _ hnone
      · intro hall
        have hrneg : r < 0 := by
          by_contra hcon
          have hjlt : r.toNat < candles.length := by omega
          have h2 := hle r.toNat hjlt (by omega)
          exact hall _ (getD_mem_of_lt candles default hjlt) h2
        rw [if_pos hrneg]
    · intro v hv
      have hrneg : ¬(r < 0) := by
        by_contra hcon
        rw [if_pos hcon] at hv
        exact Option.noConfusion hv
      rw [if_neg hrneg] at hv
      have hjlt : r.toNat < candles.length := by omega
      refine ⟨candles.getD r.toNat default, getD_mem_of_lt candles default hjlt,
        hle r.toNat hjlt (by omega), (Option.some_inj.mp hv).symm, ?_⟩
      intro c' hc' hct'
      obtain ⟨j, hj, rfl⟩ := List.mem_iff_getElem.mp hc'
      rw [← List.getD_eq_getElem candles default hj] at hct' ⊢
      rcases Nat.lt_or_ge r.toNat j with hcase | hcase
      · exfalso
        have := hgt j hj (by omega)
        omega
      · exact @getD_rel_of_pairwise_le Candle (fun a b => a.timestamp ≤ b.timestamp)
          (fun a => le_refl _) candles hp default j r.toNat hcase hjlt

/-- Witness for C5 on a concrete two-candle ascending list with target 25. -/
theorem findCloseAtOrBefore_spec_witness :
    (findCloseAtOrBefore [⟨10, 0, 0, 0, 1, 0⟩, ⟨20, 0, 0, 0, 2, 0⟩] 25 = none ↔
      ∀ c ∈ ([⟨10, 0, 0, 0, 1, 0⟩, ⟨20, 0, 0, 0, 2, 0⟩] : List Candle), ¬(c.timestamp ≤ 25)) ∧
    ∀ v : ℚ, findCloseAtOrBefore [⟨10, 0, 0, 0, 1, 0⟩, ⟨20, 0, 0, 0, 2, 0⟩] 25 = some v →
      ∃ c ∈ ([⟨10, 0, 0, 0, 1, 0⟩, ⟨20, 0, 0, 0, 2, 0⟩] : List Candle), c.timestamp ≤ 25 ∧
        v = c.close ∧
        ∀ c' ∈ ([⟨10, 0, 0, 0, 1, 0⟩, ⟨20, 0, 0, 0, 2, 0⟩] : List Candle),
          c'.timestamp ≤ 25 → c'.timestamp ≤ c.timestamp :=
  findCloseAtOrBefore_spec [⟨10, 0, 0, 0, 1, 0⟩, ⟨20, 0, 0, 0, 2, 0⟩] 25 (by decide)

/-- C8: clipping with null bounds is the identity; clipping to a non-null
range keeps exactly the points with `startMs ≤ timestamp ≤ endMs` (both ends
inclusive), in their original order (the output is a sublist of the input). -/
theorem clipPointsToRange_spec (points : List ProjectionPoint) (r : TimeRange) :
    clipPointsToRange points none = points ∧
    (clipPointsToRange points (some r)).Sublist points ∧
    ∀ p : ProjectionPoint, p ∈ clipPointsToRange points (some r) ↔
      p ∈ points ∧ r.startMs ≤ p.timestamp ∧ p.timestamp ≤ r.endMs := by
  refine ⟨rfl, List.filter_sublist points, fun p => ?_⟩
  simp [clipPointsToRange, List.mem_filter, and_assoc]

/-- Characterisation of a surviving provider candlestick: all four OHLC
components resolve through the dollar-string-then-cents chain to the output
fields. -/
theorem normalizeCandlestick_some {c : KalshiCandlestick} {s : KalshiCandlestickField}
    (hsrc : c.price.orElse (fun _ => c.yes_bid) = some s) {out : Candle}
    (hout : normalizeCandlestick c = some out) :
    (parseDollar s.open_dollars).orElse (fun _ => s.open_.map (fun n => n / 100)) = some out.open_ ∧
    (parseDollar s.high_dollars).orElse (fun _ => s.high.map (fun n => n / 100)) = some out.high ∧
    (parseDollar s.low_dollars).orElse (fun _ => s.low.map (fun n => n / 100)) = some out.low ∧
    (parseDollar s.close_dollars).orElse (fun _ => s.close.map (fun n => n / 100)) = some out.close := by
  unfold normalizeCandlestick at hout
  rw [hsrc] at hout
  dsimp only at hout
  split at hout
  · rename_i o h l cl ts ho hh hl hcl hts
    obtain rfl : _ = out := Option.some_inj.mp hout
    exact ⟨ho, hh, hl, hcl⟩
  · exact absurd hout (by simp)

/-- A provider candlestick one of whose OHLC components resolves to null
(neither source succeeds) fails the all-four-present check and is dropped. -/
theorem normalizeCandlestick_none_of_unresolved {c : KalshiCandlestick}
    {s : KalshiCandlestickField}
    (hsrc : c.price.orElse (fun _ => c.yes_bid) = some s)
    (hcomp :
      (parseDollar s.open_dollars).orElse (fun _ => s.open_.map (fun n => n / 100)) = none ∨
      (parseDollar s.high_dollars).orElse (fun _ => s.high.map (fun n => n / 100)) = none ∨
      (parseDollar s.low_dollars).orElse (fun _ => s.low.map (fun n => n / 100)) = none ∨
      (parseDollar s.close_dollars).orElse (fun _ => s.close.map (fun n => n / 100)) = none) :
    normalizeCandlestick c = none := by
  unfold normalizeCandlestick
  rw [hsrc]
  dsimp only
  split
  · rename_i o h l cl ts ho hh hl hcl hts
    rcases hcomp with hx | hx | hx | hx
    · rw [hx] at ho; exact Option.noConfusion ho
    · rw [hx] at hh; exact Option.noConfusion hh
    · rw [hx] at hl; exact Option.noConfusion hl
    · rw [hx] at hcl; exact Option.noConfusion hcl
  · rfl

/-- C2 (amended): a malformed decimal-string dollar OHLC field parses to null
(not a surviving NaN), and the candlestick is dropped from the normalized
output exactly when the failing component has no integer-cents fallback: here,
when some component has both a failing dollar parse and an absent cents field,
the candlestick contributes nothing to `normalizeCandles`.  (When the
integer-cents field for that component is present, the cents fallback fills
the component and the candle is kept; see the counterexample.) -/
theorem malformed_dollar_drops_candle (pre post : List KalshiCandlestick)
    (c : KalshiCandlestick) (s : KalshiCandlestickField)
    (hsrc : c.price.orElse (fun _ => c.yes_bid) = some s)
    (hmal :
      (parseDollar s.open_dollars = none ∧ s.open_ = none) ∨
      (parseDollar s.high_dollars = none ∧ s.high = none) ∨
      (parseDollar s.low_dollars = none ∧ s.low = none) ∨
      (parseDollar s.close_dollars = none ∧ s.close = none)) :
    normalizeCandlestick c = none ∧
      normalizeCandles (pre ++ c :: post) = normalizeCandles (pre ++ post) := by
  have hnone : normalizeCandlestick c = none := by
    refine normalizeCandlestick_none_of_unresolved hsrc ?_
    rcases hmal with ⟨h1, h2⟩ | ⟨h1, h2⟩ | ⟨h1, h2⟩ | ⟨h1, h2⟩
    · exact Or.inl (by rw [h1, h2]; rfl)
    · exact Or.inr (Or.inl (by rw [h1, h2]; rfl))
    · exact Or.inr (Or.inr (Or.inl (by rw [h1, h2]; rfl)))
    · exact Or.inr (Or.inr (Or.inr (by rw [h1, h2]; rfl)))
  refine ⟨hnone, ?_⟩
  simp [normalizeCandles, hnone]

/-- Witness for the amended C2: a candlestick whose `open_dollars` is the
malformed string "abc" and whose cents `open` field is absent is dropped. -/
theorem malformed_dollar_drops_candle_witness :
    normalizeCandlestick
      ⟨some 100, some ⟨none, none, none, none, some (r"abc"), some (r"2"), some (r"3"), some (r"4")⟩,
        none, some 7, none⟩ = none ∧
    normalizeCandles ([] ++
      ⟨some 100, some ⟨none, none, none, none, some (r"abc"), some (r"2"), some (r"3"), some (r"4")⟩,
        none, some 7, none⟩ :: []) = normalizeCandles ([] ++ []) :=
  malformed_dollar_drops_candle [] []
    ⟨some 100, some ⟨none, none, none, none, some (r"abc"), some (r"2"), some (r"3"), some (r"4")⟩,
      none, some 7, none⟩
    ⟨none, none, none, none, some (r"abc"), some (r"2"), some (r"3"), some (r"4")⟩
    (by decide) (Or.inl ⟨by decide, by decide⟩)

/-- C2 counterexample: a candlestick whose `open_dollars` is the malformed
string "abc" but which also carries the integer-cents field `open = 50` is NOT
dropped: the cents fallback resolves the component to 0.5 and the candle is
kept, refuting the claim's "even when an integer-cents field for the same
component is also present". -/
theorem malformed_dollar_cents_counterexample :
    normalizeCandles [⟨some 100,
        some ⟨some 50, none, none, none, some (r"abc"), some (r"2"), some (r"3"), some (r"4")⟩,
        none, some 7, none⟩] = [⟨100000, 1 / 2, 2, 3, 4, 7⟩] ∧
    normalizeCandles [⟨some 100,
        some ⟨some 50, none, none, none, some (r"abc"), some (r"2"), some (r"3"), some (r"4")⟩,
        none, some 7, none⟩] ≠ [] := by
  have h1 : jsNumber (r"abc") = none := by decide
  have h2 : jsNumber (r"2") = some 2 := by decide
  have h3 : jsNumber (r"3") = some 3 := by decide
  have h4 : jsNumber (r"4") = some 4 := by decide
  have he : normalizeCandles [⟨some 100,
      some ⟨some 50, none, none, none, some (r"abc"), some (r"2"), some (r"3"), some (r"4")⟩,
      none, some 7, none⟩] = [⟨100000, 1 / 2, 2, 3, 4, 7⟩] := by
    simp [normalizeCandles, normalizeCandlestick, parseDollar, h1, h2, h3, h4]
    norm_num
  exact ⟨he, by rw [he]; simp⟩

/-- C7: when an OHLC component of a surviving provider candlestick carries
both a parseable decimal-string dollar field and an integer-cents field, the
normalized value of that component is the parsed dollar value (the decimal
string takes precedence over cents-divided-by-100). -/
theorem dollar_string_precedence {c : KalshiCandlestick} {s : KalshiCandlestickField}
    {out : Candle}
    (hsrc : c.price.orElse (fun _ => c.yes_bid) = some s)
    (hout : normalizeCandlestick c = some out) :
    (∀ v cv : ℚ, parseDollar s.open_dollars = some v → s.open_ = some cv → out.open_ = v) ∧
    (∀ v cv : ℚ, parseDollar s.high_dollars = some v → s.high = some cv → out.high = v) ∧
    (∀ v cv : ℚ, parseDollar s.low_dollars = some v → s.low = some cv → out.low = v) ∧
    (∀ v cv : ℚ, parseDollar s.close_dollars = some v → s.close = some cv → out.close = v) := by
  obtain ⟨ho, hh, hl, hcl⟩ := normalizeCandlestick_some hsrc hout
  refine ⟨fun v cv hv hcv => ?_, fun v cv hv hcv => ?_,
    fun v cv hv hcv => ?_, fun v cv hv hcv => ?_⟩
  · rw [hv] at ho
    simp at ho
    exact ho.symm
  · rw [hv] at hh
    simp at hh
    exact hh.symm
  · rw [hv] at hl
    simp at hl
    exact hl.symm
  · rw [hv] at hcl
    simp at hcl
    exact hcl.symm

/-- Witness for C7: `open_dollars = "2"` together with cents `open = 50`
yields the dollar-derived value 2, not 0.5. -/
theorem dollar_string_precedence_witness :
    (⟨100000, 2, 2, 3, 4, 7⟩ : Candle).open_ = 2 :=
  (@dollar_string_precedence
    ⟨some 100, some ⟨some 50, none, none, none, some (r"2"), some (r"2"), some (r"3"), some (r"4")⟩,
      none, some 7, none⟩
    ⟨some 50, none, none, none, some (r"2"), some (r"2"), some (r"3"), some (r"4")⟩
    ⟨100000, 2, 2, 3, 4, 7⟩
    (by decide) (by decide)).1 2 50 (by decide) (by decide)

/-- Fold characterisation of `seatSums`: the running pair equals the map-sum
of per-market contributions (a market with no candle at or before the
timestamp contributes nothing to either component). -/
theorem seatSums_eq (markets : List SeatMarket) (ts : Int) :
    seatSums markets ts =
      ((markets.map fun m =>
          (findCloseAtOrBefore m.candles ts).elim 0 (fun p => m.seats * p)).sum,
       (markets.map fun m => (findCloseAtOrBefore m.candles ts).elim 0 id).sum) := by
  have hgo : ∀ (ms : List SeatMarket) (a b : ℚ),
      ms.foldl
        (fun acc m =>
          match findCloseAtOrBefore m.candles ts with
          | none => acc
          | some p => (acc.1 + m.seats * p, acc.2 + p)) (a, b) =
      (a + (ms.map fun m =>
          (findCloseAtOrBefore m.candles ts).elim 0 (fun p => m.seats * p)).sum,
       b + (ms.map fun m => (findCloseAtOrBefore m.candles ts).elim 0 id).sum) := by
    intro ms
    induction ms with
    | nil => intro a b; simp
    | cons m rest ih =>
      intro a b
      rcases hm : findCloseAtOrBefore m.candles ts with _ | p
      · simp only [List.foldl_cons, hm, List.map_cons, List.sum_cons]
        rw [ih]
        simp [hm]
      · simp only [List.foldl_cons, hm, List.map_cons, List.sum_cons]
        rw [ih]
        simp [hm]
        constructor <;> ring
  rw [seatSums, hgo]
  simp

/-- C3: for every basket of seat markets with candle histories and every
timestamp T in the reference set, a point at T is emitted iff the sum of the
markets' last closes at-or-before T is strictly positive, and its value is
Σ(seats·p) / Σ(p) over the markets that have a close at-or-before T. -/
theorem seatProjection_weighted_average (markets : List SeatMarket)
    (baseTimestamps : List Int) (T : Int) (hT : T ∈ baseTimestamps) :
    ((∃ pt ∈ seatProjectionPoints markets baseTimestamps, pt.timestamp = T) ↔
      0 < (markets.map fun m => (findCloseAtOrBefore m.candles T).elim 0 id).sum) ∧
    ∀ pt ∈ seatProjectionPoints markets baseTimestamps, pt.timestamp = T →
      pt.value =
        (markets.map fun m =>
          (findCloseAtOrBefore m.candles T).elim 0 (fun p => m.seats * p)).sum /
        (markets.map fun m => (findCloseAtOrBefore m.candles T).elim 0 id).sum := by
  have hval : ∀ ts0 : Int, ∀ pt : ProjectionPoint,
      (let s := seatSums markets ts0
       if 0 < s.2 then some (⟨ts0, s.1 / s.2⟩ : ProjectionPoint) else none) = some pt →
      pt.timestamp = ts0 ∧ 0 < (seatSums markets ts0).2 ∧
        pt.value = (seatSums markets ts0).1 / (seatSums markets ts0).2 := by
    intro ts0 pt h
    dsimp only at h
    by_cases hpos : 0 < (seatSums markets ts0).2
    · rw [if_pos hpos] at h
      obtain rfl : _ = pt := Option.some_inj.mp h
      exact ⟨rfl, hpos, rfl⟩
    · rw [if_neg hpos] at h
      exact Option.noConfusion h
  constructor
  · constructor
    · rintro ⟨pt, hpt, hts⟩
      rw [seatProjectionPoints, List.mem_filterMap] at hpt
      obtain ⟨ts0, hts0, heq⟩ := hpt
      obtain ⟨he1, he2, he3⟩ := hval ts0 pt heq
      have hts0T : ts0 = T := by rw [← he1, hts]
      subst hts0T
      rw [seatSums_eq] at he2
      simpa using he2
    · intro hpos
      refine ⟨⟨T, (seatSums markets T).1 / (seatSums markets T).2⟩, ?_, rfl⟩
      rw [seatProjectionPoints, List.mem_filterMap]
      refine ⟨T, hT, ?_⟩
      dsimp only
      rw [if_pos (by rw [seatSums_eq]; exact hpos)]
  · intro pt hpt hts
    rw [seatProjectionPoints, List.mem_filterMap] at hpt
    obtain ⟨ts0, hts0, heq⟩ := hpt
    obtain ⟨he1, he2, he3⟩ := hval ts0 pt heq
    rw [he3, ← he1, hts, seatSums_eq]

/-- Witness for C3: the spec example — markets with prices 0.3 and 0.7 at
timestamp 100 and seat counts 10 and 20 give the projected value
(10·0.3 + 20·0.7)/(0.3 + 0.7) = 17. -/
theorem seatProjection_weighted_average_witness :
    (100 : Int) ∈ ([100] : List Int) ∧
    seatProjectionPoints
      [⟨10, [⟨100, 0, 0, 0, 3 / 10, 0⟩]⟩, ⟨20, [⟨100, 0, 0, 0, 7 / 10, 0⟩]⟩] [100] =
      [⟨100, 17⟩] ∧
    ∀ pt ∈ seatProjectionPoints
        [⟨10, [⟨100, 0, 0, 0, 3 / 10, 0⟩]⟩, ⟨20, [⟨100, 0, 0, 0, 7 / 10, 0⟩]⟩] [100],
      pt.timestamp = 100 →
      pt.value =
        (([⟨10, [⟨100, 0, 0, 0, 3 / 10, 0⟩]⟩, ⟨20, [⟨100, 0, 0, 0, 7 / 10, 0⟩]⟩] :
            List SeatMarket).map fun m =>
          (findCloseAtOrBefore m.candles 100).elim 0 (fun p => m.seats * p)).sum /
        (([⟨10, [⟨100, 0, 0, 0, 3 / 10, 0⟩]⟩, ⟨20, [⟨100, 0, 0, 0, 7 / 10, 0⟩]⟩] :
            List SeatMarket).map fun m => (findCloseAtOrBefore m.candles 100).elim 0 id).sum := by
  have h3 : findCloseAtOrBefore [⟨100, 0, 0, 0, 3 / 10, 0⟩] 100 = some (3 / 10) := by
    rw [findCloseAtOrBefore]
    norm_num
    rw [findCloseLoop]
    norm_num
    rw [findCloseLoop]
    norm_num
  have h7 : findCloseAtOrBefore [⟨100, 0, 0, 0, 7 / 10, 0⟩] 100 = some (7 / 10) := by
    rw [findCloseAtOrBefore]
    norm_num
    rw [findCloseLoop]
    norm_num
    rw [findCloseLoop]
    norm_num
  refine ⟨by simp, ?_,
    (seatProjection_weighted_average
      [⟨10, [⟨100, 0, 0, 0, 3 / 10, 0⟩]⟩, ⟨20, [⟨100, 0, 0, 0, 7 / 10, 0⟩]⟩] [100] 100
      (by simp)).2⟩
  rw [seatProjectionPoints]
  simp only [List.filterMap_cons, List.filterMap_nil]
  rw [seatSums_eq]
  simp [h3, h7]
  norm_num

/-- The EMA loop preserves length. -/
theorem emaLoop_length (alpha : ℚ) : ∀ (e : ℚ) (l : List ProjectionPoint),
    (emaLoop alpha e l).length = l.length := by
  intro e l
  induction l generalizing e with
  | nil => rfl
  | cons p rest ih => simp [emaLoop, ih]

/-- Pointwise characterisation of the EMA loop: the i-th output keeps the
i-th timestamp and clamps the accumulator folded over the first i+1 values. -/
theorem emaLoop_getD (alpha : ℚ) : ∀ (l : List ProjectionPoint) (e : ℚ) (i : ℕ),
    i < l.length →
    (emaLoop alpha e l).getD i default =
      ⟨(l.getD i default).timestamp,
        max 0 (min 100 (emaAccum alpha e ((l.map ProjectionPoint.value).take (i + 1))))⟩ := by
  intro l
  induction l with
  | nil =>
    intro e i hi
    simp at hi
  | cons p rest ih =>
    intro e i hi
    cases i with
    | zero => simp [emaLoop, emaAccum]
    | succ n =>
      simp only [emaLoop, List.getD_cons_succ, List.map_cons, List.take_succ_cons]
      rw [ih (alpha * p.value + (1 - alpha) * e) n (by simpa using hi)]
      simp [emaAccum]

/-- C4: the aggregator returns a daily sequence of at most 2 points
unchanged; with more than 2 points it returns the sequence whose accumulator
starts at the first daily value, is updated by ema = 0.35·daily + 0.65·ema at
every step, and is emitted clamped to [0, 100]; in particular one smoothing
step over daily values [50, 60] yields [50, 53.5]. -/
theorem approval_smoothing_spec (daily : List ProjectionPoint) :
    (daily.length ≤ 2 → smoothDaily daily = daily) ∧
    (2 < daily.length →
      (smoothDaily daily).length = daily.length ∧
      ∀ i : ℕ, i < daily.length →
        (smoothDaily daily).getD i default =
          ⟨(daily.getD i default).timestamp,
            max 0 (min 100 (emaAccum (35 / 100) ((daily.headD default).value)
              ((daily.map ProjectionPoint.value).take (i + 1))))⟩) ∧
    emaLoop (35 / 100) 50 [⟨0, 50⟩, ⟨86400000, 60⟩] =
      [⟨0, 50⟩, ⟨86400000, 107 / 2⟩] := by
  refine ⟨?_, ?_, ?_⟩
  · intro h
    rw [smoothDaily, if_pos h]
  · intro h
    rw [smoothDaily, if_neg (by omega)]
    exact ⟨emaLoop_length _ _ _, fun i hi => emaLoop_getD _ daily _ i hi⟩
  · simp only [emaLoop]
    norm_num [max_def, min_def]

/-- Witness for C4: the ≤ 2 branch is the identity on [50, 60], and in a
3-point sequence the second smoothed value is 0.35·60 + 0.65·50 = 53.5. -/
theorem approval_smoothing_spec_witness :
    smoothDaily [⟨0, 50⟩, ⟨86400000, 60⟩] = [⟨0, 50⟩, ⟨86400000, 60⟩] ∧
    (smoothDaily [⟨0, 50⟩, ⟨86400000, 60⟩, ⟨172800000, 70⟩]).getD 1 default =
      ⟨86400000, 107 / 2⟩ := by
  constructor
  · exact (approval_smoothing_spec [⟨0, 50⟩, ⟨86400000, 60⟩]).1 (by norm_num)
  · have h := ((approval_smoothing_spec
      [⟨0, 50⟩, ⟨86400000, 60⟩, ⟨172800000, 70⟩]).2.1 (by norm_num)).2 1 (by norm_num)
    rw [h]
    norm_num [emaAccum, max_def, min_def]

instance : IsTotal ProjectionPoint (fun a b => a.timestamp ≤ b.timestamp) :=
  ⟨fun a b => le_total a.timestamp b.timestamp⟩

instance : IsTrans ProjectionPoint (fun a b => a.timestamp ≤ b.timestamp) :=
  ⟨fun _ _ _ hab hbc => le_trans hab hbc⟩

/-- The EMA loop preserves the timestamp sequence. -/
theorem emaLoop_map_timestamp (alpha : ℚ) : ∀ (e : ℚ) (l : List ProjectionPoint),
    (emaLoop alpha e l).map ProjectionPoint.timestamp = l.map ProjectionPoint.timestamp := by
  intro e l
  induction l generalizing e with
  | nil => rfl
  | cons p rest ih => simp [emaLoop, ih]

/-- The smoothing stage preserves the timestamp sequence. -/
theorem smoothDaily_map_timestamp (daily : List ProjectionPoint) :
    (smoothDaily daily).map ProjectionPoint.timestamp =
      daily.map ProjectionPoint.timestamp := by
  rw [smoothDaily]
  split_ifs with h
  · rfl
  · exact emaLoop_map_timestamp _ _ _

/-- Day-bucket flooring is idempotent. -/
theorem dayBucketTs_idem (ts : Int) : dayBucketTs (dayBucketTs ts) = dayBucketTs ts := by
  rw [dayBucketTs, dayBucketTs, Int.mul_ediv_cancel_left _ (by norm_num)]

/-- Key list of a bucket update: unchanged when the day is already present,
extended by the day at the end otherwise. -/
theorem upsertBucket_keys (buckets : List (Int × ℚ × ℕ)) (day : Int) (v : ℚ) :
    (upsertBucket buckets day v).map Prod.fst =
      if day ∈ buckets.map Prod.fst then buckets.map Prod.fst
      else buckets.map Prod.fst ++ [day] := by
  induction buckets with
  | nil => simp [upsertBucket]
  | cons e rest ih =>
    obtain ⟨d, s, c⟩ := e
    by_cases hd : d = day
    · simp [upsertBucket, hd]
    · by_cases hmem : day ∈ rest.map Prod.fst
      · simp [upsertBucket, hd, hmem, ih, Ne.symm hd]
      · simp [upsertBucket, hd, hmem, ih, Ne.symm hd]

/-- The day-bucket keys are duplicate-free and are all day boundaries (fixed
points of `dayBucketTs`). -/
theorem dayBuckets_keys_props (raw : List ProjectionPoint) :
    ((dayBuckets raw).map Prod.fst).Nodup ∧
      ∀ k ∈ (dayBuckets raw).map Prod.fst, dayBucketTs k = k := by
  rw [dayBuckets]
  suffices h : ∀ (init : List (Int × ℚ × ℕ)),
      (init.map Prod.fst).Nodup → (∀ k ∈ init.map Prod.fst, dayBucketTs k = k) →
      ((raw.foldl (fun b p => upsertBucket b (dayBucketTs p.timestamp) p.value) init).map
        Prod.fst).Nodup ∧
      ∀ k ∈ (raw.foldl (fun b p => upsertBucket b (dayBucketTs p.timestamp) p.value)
          init).map Prod.fst, dayBucketTs k = k by
    exact h [] (by simp) (by simp)
  induction raw with
  | nil =>
    intro init h1 h2
    exact ⟨h1, h2⟩
  | cons p rest ih =>
    intro init h1 h2
    simp only [List.foldl_cons]
    apply ih
    · rw [upsertBucket_keys]
      split_ifs with hmem
      · exact h1
      · simp [List.nodup_append, h1, hmem]
    · intro k hk
      rw [upsertBucket_keys] at hk
      split_ifs at hk with hmem
      · exact h2 k hk
      · rcases List.mem_append.mp hk with hk | hk
        · exact h2 k hk
        · have hkd : k = dayBucketTs p.timestamp := by simpa using hk
          rw [hkd]
          exact dayBucketTs_idem p.timestamp

/-- The daily-average stage produces strictly increasing timestamps, all of
them day boundaries. -/
theorem dailyAverages_timestamps (raw : List ProjectionPoint) :
    ((dailyAverages raw).map ProjectionPoint.timestamp).Pairwise (· < ·) ∧
      ∀ p ∈ dailyAverages raw, dayBucketTs p.timestamp = p.timestamp := by
  obtain ⟨hnd, hfix⟩ := dayBuckets_keys_props raw
  have hmapts :
      ((dayBuckets raw).map (fun e => (⟨e.1, e.2.1 / (e.2.2 : ℚ)⟩ : ProjectionPoint))).map
        ProjectionPoint.timestamp = (dayBuckets raw).map Prod.fst := by
    rw [List.map_map]
    rfl
  have hperm : List.Perm (dailyAverages raw)
      ((dayBuckets raw).map (fun e => (⟨e.1, e.2.1 / (e.2.2 : ℚ)⟩ : ProjectionPoint))) :=
    List.perm_insertionSort _ _
  have hsorted : (dailyAverages raw).Sorted (fun a b => a.timestamp ≤ b.timestamp) :=
    List.sorted_insertionSort _ _
  have hnd2 : ((dailyAverages raw).map ProjectionPoint.timestamp).Nodup := by
    refine ((hperm.map ProjectionPoint.timestamp).nodup_iff).mpr ?_
    rw [hmapts]
    exact hnd
  constructor
  · have hle : ((dailyAverages raw).map ProjectionPoint.timestamp).Pairwise (· ≤ ·) :=
      hsorted.map _ (fun a b hab => hab)
    exact (hle.and hnd2).imp (fun h => lt_of_le_of_ne h.1 h.2)
  · intro p hp
    have hmem : p ∈
        (dayBuckets raw).map (fun e => (⟨e.1, e.2.1 / (e.2.2 : ℚ)⟩ : ProjectionPoint)) :=
      hperm.mem_iff.mp hp
    obtain ⟨e, he, rfl⟩ := List.mem_map.mp hmem
    exact hfix e.1 (List.mem_map_of_mem Prod.fst he)

/-- C10: for every raw approval point list, the aggregator output (raw-daily
or smoothed branch alike) has strictly increasing timestamps, each a
UTC-midnight day boundary, with at most one point per UTC calendar day. -/
theorem approvalAggregate_day_invariants (raw : List ProjectionPoint) :
    ((approvalAggregate raw).map ProjectionPoint.timestamp).Pairwise (· < ·) ∧
    (∀ p ∈ approvalAggregate raw, dayBucketTs p.timestamp = p.timestamp) ∧
    ((approvalAggregate raw).map (fun p => dayBucketTs p.timestamp)).Pairwise (· ≠ ·) := by
  obtain ⟨hpw, hfix⟩ := dailyAverages_timestamps (sortPointsByTimestamp raw)
  have hmap : (approvalAggregate raw).map ProjectionPoint.timestamp =
      (dailyAverages (sortPointsByTimestamp raw)).map ProjectionPoint.timestamp :=
    smoothDaily_map_timestamp _
  have hfix2 : ∀ p ∈ approvalAggregate raw, dayBucketTs p.timestamp = p.timestamp := by
    intro p hp
    have hmem : p.timestamp ∈ (approvalAggregate raw).map ProjectionPoint.timestamp :=
      List.mem_map_of_mem _ hp
    rw [hmap] at hmem
    obtain ⟨q, hq, hqe⟩ := List.mem_map.mp hmem
    rw [← hqe]
    exact hfix q hq
  refine ⟨by rw [hmap]; exact hpw, hfix2, ?_⟩
  have hcongr : (approvalAggregate raw).map (fun p => dayBucketTs p.timestamp) =
      (approvalAggregate raw).map ProjectionPoint.timestamp :=
    List.map_congr_left (fun p hp => hfix2 p hp)
  rw [hcongr, hmap]
  exact hpw.imp (fun h => ne_of_lt h)

end MidtermMarkets
